import Mathlib

/-!
Shallow embedding of the employee REST service in `server.js`.

The document store is modelled as a list of employee records.  Each route
handler of the Express application is translated into a pure function from
the stored collection (and the request parameters) to its response, with the
successor collection returned explicitly for the mutating routes.
-/

/-- An employee document as described by `EmployeeSchema`: `_id` is the
store-assigned identifier, `name` and `email` are required strings, the
remaining fields are optional (`null`/absent is `none`).  `reportsTo` holds
the manager's identifier. -/
structure Employee where
  id : String
  name : String
  description : Option String
  email : String
  phone : Option String
  reportsTo : Option String
  img : Option String
deriving DecidableEq

/-- Lookup of a document by identifier, as the hierarchy handler's `byId`
map and Mongo's `findById` resolve an id.  The JS map keeps the last record
written for a key, hence the search from the right. -/
def byId (all : List Employee) (i : String) : Option Employee :=
  all.reverse.find? (fun e => decide (e.id = i))

/-- The `roots` array of the hierarchy handler: employees whose `reportsTo`
is not set, in collection order. -/
def roots (all : List Employee) : List Employee :=
  all.filter (fun e => decide (e.reportsTo = none))

/-- The `children` array attached to the node of employee `p` by the
hierarchy handler: every record whose `reportsTo` is set and resolves via
`byId` to `p`, in collection order. -/
def childrenOf (all : List Employee) (p : Employee) : List Employee :=
  all.filter (fun e =>
    match e.reportsTo with
    | some r => decide (byId all r = some p)
    | none => false)

/-- Resolving one `reportsTo` step: the manager document of `e`, when the
reference is set and resolves. -/
def manager (all : List Employee) (e : Employee) : Option Employee :=
  match e.reportsTo with
  | some r => byId all r
  | none => none

/-- Iterated `manager`: the `k`-th ancestor of `e` along `reportsTo`, or
`none` when the chain ends before `k` steps. -/
def managerIter (all : List Employee) : Nat → Employee → Option Employee
  | 0, e => some e
  | k + 1, e =>
    match manager all e with
    | some m => managerIter all k m
    | none => none

/-- Every manager chain starting in the collection terminates within
`all.length` steps; this is how the forest shape (no `reportsTo` cycles) is
expressed over the embedding. -/
def chainsEnd (all : List Employee) : Prop :=
  ∀ e ∈ all, managerIter all all.length e = none

/-- Every `reportsTo` reference that is set resolves to a stored record. -/
def validRefs (all : List Employee) : Prop :=
  ∀ e ∈ all, ∀ r, e.reportsTo = some r → (byId all r).isSome

instance (all : List Employee) : Decidable (chainsEnd all) :=
  List.decidableBAll _ all

instance (o : Option String) (P : String → Prop) [DecidablePred P] :
    Decidable (∀ r, o = some r → P r) :=
  match o with
  | none => isTrue (by simp)
  | some x => decidable_of_iff (P x) (by simp)

instance (all : List Employee) : Decidable (validRefs all) := by
  unfold validRefs
  exact List.decidableBAll _ all

/-- A node of the JSON forest returned by `GET /employees/hierarchy`: an
employee together with its nested `children` array. -/
inductive EmpTree where
  | node : Employee → List EmpTree → EmpTree

/-- The employee at a node. -/
def treeRoot : EmpTree → Employee
  | .node e _ => e

/-- The `children` array of a node. -/
def treeChildren : EmpTree → List EmpTree
  | .node _ cs => cs

/-- Materialisation of the hierarchy handler's object graph below employee
`e`.  The handler mutates shared objects; for collections whose `reportsTo`
chains terminate, the graph below `e` is this tree (the fuel bounds the
depth and is never exhausted on such collections). -/
def buildTree (all : List Employee) : Nat → Employee → EmpTree
  | 0, e => .node e []
  | f + 1, e => .node e ((childrenOf all e).map (buildTree all f))

/-- The response of `GET /employees/hierarchy`: the forest of roots with
nested `children` arrays. -/
def hierarchy (all : List Employee) : List EmpTree :=
  (roots all).map (buildTree all all.length)

mutual
/-- All employees occurring in a tree, in preorder. -/
def flattenTree : EmpTree → List Employee
  | .node e cs => e :: flattenForest cs

/-- All employees occurring in a forest. -/
def flattenForest : List EmpTree → List Employee
  | [] => []
  | t :: ts => flattenTree t ++ flattenForest ts
end

/-- All employees occurring in the hierarchy response. -/
def hierFlatten (all : List Employee) : List Employee :=
  flattenForest (hierarchy all)

mutual
/-- All nodes of a tree (the tree itself included). -/
def allNodes : EmpTree → List EmpTree
  | .node e cs => .node e cs :: allNodesF cs

/-- All nodes of a forest. -/
def allNodesF : List EmpTree → List EmpTree
  | [] => []
  | t :: ts => allNodes t ++ allNodesF ts
end

/-- Case-insensitive substring test: the semantics of matching a field
against `new RegExp(searchTerm, 'i')` for a plain search term. -/
def ciContains (s pat : String) : Bool :=
  (s.data.map Char.toLower).tails.any
    (fun t => (pat.data.map Char.toLower).isPrefixOf t)

/-- The `allFields` array of the search handler. -/
def allFields : List String := ["name", "email", "phone", "description"]

/-- Matching one schema field of a document against the search term; an
absent optional field matches nothing, as for a Mongo query on a missing
field. -/
def fieldMatch (e : Employee) (f : String) (term : String) : Bool :=
  if f = "name" then ciContains e.name term
  else if f = "email" then ciContains e.email term
  else if f = "phone" then
    match e.phone with
    | some s => ciContains s term
    | none => false
  else if f = "description" then
    match e.description with
    | some s => ciContains s term
    | none => false
  else false

/-- The `searchFields` selection: the single field named by `group` when it
is one of the four text fields, otherwise all of them. -/
def searchFields (group : Option String) : List String :=
  match group with
  | some g => if g ∈ allFields then [g] else allFields
  | none => allFields

/-- The `$or` text match of the search handler. -/
def textMatch (group : Option String) (term : String) (e : Employee) : Bool :=
  (searchFields group).any (fun f => fieldMatch e f term)

/-- The hard-coded identifier the `my_circle` filter uses as the current
employee. -/
def CURRENT_USER_ID : String := "685b99a3bb3c4990248037d3"

/-- The relationship clause `relClause` built for `filter=my_circle` around
the current employee `me`: with a manager, `me` or anyone sharing the
manager; without one, `me` alone (matching on `_id` resp. `reportsTo`). -/
def circlePred (me : Employee) (e : Employee) : Bool :=
  match me.reportsTo with
  | some m => decide (e.id = me.id) || decide (e.reportsTo = some m)
  | none => decide (e.id = me.id)

/-- The JSON body of a successful search response. -/
structure SearchResponse where
  data : List Employee
  totalResults : Nat
  page : Int
  rowsPerPage : Int
deriving DecidableEq

/-- An error response: HTTP status and message. -/
structure ErrResponse where
  status : Nat
  error : String
deriving DecidableEq

/-- The documents matched by the final search query: the text match,
conjoined with the relationship clause when `filter=my_circle`. -/
def searchMatches (all : List Employee) (term : String) (group : Option String)
    (filter : String) (me : Employee) : List Employee :=
  if filter = "my_circle" then
    all.filter (fun e => textMatch group term e && circlePred me e)
  else
    all.filter (fun e => textMatch group term e)

/-- The handler of `GET /employees/search`: computes `skip` and `limit`
from `page` and `rowsPerPage`, resolves the current employee when
`filter=my_circle` (404 when absent), and answers the matched page together
with the total match count. -/
def searchEndpoint (all : List Employee) (term : String) (page rowsPerPage : Int)
    (group : Option String) (filter : String) : Except ErrResponse SearchResponse :=
  let skip : Nat := ((max 1 page - 1) * max 1 rowsPerPage).toNat
  let limit : Nat := (max 1 rowsPerPage).toNat
  if filter = "my_circle" then
    match byId all CURRENT_USER_ID with
    | none => .error ⟨404, "Current employee not found"⟩
    | some me =>
      let ms := searchMatches all term group filter me
      .ok ⟨(ms.drop skip).take limit, ms.length, page, rowsPerPage⟩
  else
    let ms := all.filter (fun e => textMatch group term e)
    .ok ⟨(ms.drop skip).take limit, ms.length, page, rowsPerPage⟩

/-- A candidate record posted to `POST /employees`; every field may be
absent from the request body. -/
structure NewEmployee where
  name : Option String
  email : Option String
  description : Option String
  phone : Option String
  reportsTo : Option String
  img : Option String
deriving DecidableEq

/-- The handler of `POST /employees`: schema validation requires `name` and
`email`; the unique index on `email` rejects a duplicate.  Returns the HTTP
status and the successor collection (`newId` stands for the store-assigned
identifier). -/
def postEmployees (all : List Employee) (c : NewEmployee) (newId : String) :
    Nat × List Employee :=
  match c.name, c.email with
  | some n, some em =>
    if all.any (fun e => decide (e.email = em)) then
      (400, all)
    else
      (201, all ++ [⟨newId, n, c.description, em, c.phone, c.reportsTo, c.img⟩])
  | _, _ => (400, all)

/-- The projected record returned by `GET /employees/simple`: identifier
and name only. -/
structure SimpleEmployee where
  id : String
  name : String
deriving DecidableEq

/-- The handler of `GET /employees/simple`: `find({}, { name: 1 })`. -/
def simpleList (all : List Employee) : List SimpleEmployee :=
  all.map (fun e => ⟨e.id, e.name⟩)

/-- The handler of `GET /employees/:id`: the record, or 404. -/
def getEmployee (all : List Employee) (i : String) : Except ErrResponse Employee :=
  match byId all i with
  | none => .error ⟨404, "Not found"⟩
  | some e => .ok e

/-- The update document built by `PUT /employees/:id`; absent body fields
leave the stored value (Mongoose drops `undefined` keys from the update),
except `reportsTo`, which `req.body.reportsTo || null` always sets. -/
structure UpdateBody where
  name : Option String
  description : Option String
  email : Option String
  phone : Option String
  reportsTo : Option String
deriving DecidableEq

/-- Applying the update document to a stored record. -/
def applyUpdate (old : Employee) (b : UpdateBody) : Employee :=
  { old with
    name := b.name.getD old.name
    description := b.description.orElse (fun _ => old.description)
    email := b.email.getD old.email
    phone := b.phone.orElse (fun _ => old.phone)
    reportsTo := b.reportsTo }

/-- The handler of `PUT /employees/:id`: 404 and an unchanged collection
when the id resolves to no record, otherwise the updated record and the
collection with that document replaced. -/
def putEmployee (all : List Employee) (i : String) (b : UpdateBody) :
    Option Employee × List Employee :=
  match byId all i with
  | none => (none, all)
  | some old =>
    let upd := applyUpdate old b
    (some upd, all.map (fun e => if e.id = i then upd else e))

/-- The handler of `DELETE /employees/:id`: 404 and an unchanged collection
when the id resolves to no record, otherwise the collection without that
document. -/
def deleteEmployee (all : List Employee) (i : String) :
    Option Employee × List Employee :=
  match byId all i with
  | none => (none, all)
  | some d => (some d, all.eraseP (fun e => decide (e.id = i)))


/-! ### Basic facts about lookups, roots and children -/

lemma byId_eq_some {all : List Employee} {i : String} {e : Employee}
    (h : byId all i = some e) : e ∈ all ∧ e.id = i := by
  unfold byId at h
  refine ⟨?_, ?_⟩
  · have := List.mem_of_find?_eq_some h
    simpa using this
  · have := List.find?_some h
    simpa using this

lemma mem_roots {all : List Employee} {x : Employee} :
    x ∈ roots all ↔ x ∈ all ∧ x.reportsTo = none := by
  unfold roots
  simp [List.mem_filter]

lemma mem_childrenOf {all : List Employee} {p x : Employee} :
    x ∈ childrenOf all p ↔ x ∈ all ∧ manager all x = some p := by
  unfold childrenOf manager
  rw [List.mem_filter]
  cases hx : x.reportsTo <;> simp

lemma manager_mem {all : List Employee} {e m : Employee}
    (h : manager all e = some m) : m ∈ all := by
  unfold manager at h
  cases he : e.reportsTo with
  | none => rw [he] at h; exact absurd h (by simp)
  | some r => rw [he] at h; exact (byId_eq_some h).1

lemma manager_of_reportsTo_none {all : List Employee} {e : Employee}
    (h : e.reportsTo = none) : manager all e = none := by
  unfold manager
  rw [h]

/-! ### The manager-iteration calculus -/

lemma managerIter_zero (all : List Employee) (e : Employee) :
    managerIter all 0 e = some e := rfl

lemma managerIter_succ (all : List Employee) (k : Nat) (e : Employee) :
    managerIter all (k + 1) e =
      match manager all e with
      | some m => managerIter all k m
      | none => none := rfl

lemma managerIter_one (all : List Employee) (e : Employee) :
    managerIter all 1 e = manager all e := by
  rw [managerIter_succ]
  cases manager all e <;> rfl

lemma managerIter_add (all : List Employee) (a b : Nat) (e : Employee) :
    managerIter all (a + b) e = (managerIter all a e).bind (managerIter all b) := by
  induction a generalizing e with
  | zero => simp [managerIter_zero]
  | succ a ih =>
    rw [Nat.succ_add, managerIter_succ, managerIter_succ]
    cases manager all e with
    | none => simp
    | some m => simpa using ih m

lemma managerIter_succ_right (all : List Employee) (k : Nat) (e : Employee) :
    managerIter all (k + 1) e = (managerIter all k e).bind (manager all) := by
  rw [managerIter_add all k 1 e]
  cases managerIter all k e with
  | none => rfl
  | some y => simp [managerIter_one]

lemma managerIter_mem {all : List Employee} {e y : Employee} {k : Nat}
    (he : e ∈ all) (h : managerIter all k e = some y) : y ∈ all := by
  induction k generalizing e with
  | zero => simp [managerIter] at h; rwa [← h]
  | succ k ih =>
    unfold managerIter at h
    cases hm : manager all e with
    | none => rw [hm] at h; exact absurd h (by simp)
    | some m => rw [hm] at h; exact ih (manager_mem hm) h

lemma managerIter_none_of_manager_none {all : List Employee} {y : Employee}
    (h : manager all y = none) {k : Nat} (hk : k ≠ 0) :
    managerIter all k y = none := by
  cases k with
  | zero => exact absurd rfl hk
  | succ k => unfold managerIter; rw [h]

lemma cycle_absurd {all : List Employee} {e : Employee} {k : Nat}
    (he : e ∈ all) (hC : chainsEnd all) (hk : k ≠ 0)
    (h : managerIter all k e = some e) : False := by
  have hiter : ∀ m : Nat, managerIter all (m * k) e = some e := by
    intro m
    induction m with
    | zero => simp [managerIter]
    | succ m ih =>
      rw [Nat.succ_mul, managerIter_add, ih]
      simpa using h
  set n := all.length with hn
  have hle : n ≤ n * k := Nat.le_mul_of_pos_right n (Nat.pos_of_ne_zero hk)
  have hsplit : managerIter all (n * k) e = (managerIter all n e).bind (managerIter all (n * k - n)) := by
    rw [← managerIter_add all n (n * k - n) e, Nat.add_sub_cancel' hle]
  rw [hC e he] at hsplit
  rw [hiter n] at hsplit
  simp at hsplit

lemma iter_eq_iter_unique {all : List Employee} {x y : Employee} {a b : Nat}
    (hx : x ∈ all) (hC : chainsEnd all)
    (ha : managerIter all a x = some y) (hb : managerIter all b x = some y) :
    a = b := by
  rcases Nat.lt_trichotomy a b with h | h | h
  · exfalso
    have hy : y ∈ all := managerIter_mem hx ha
    have : managerIter all (a + (b - a)) x = some y := by
      rwa [Nat.add_sub_cancel' (Nat.le_of_lt h)]
    rw [managerIter_add, ha] at this
    simp at this
    exact cycle_absurd hy hC (Nat.sub_ne_zero_of_lt h) this
  · exact h
  · exfalso
    have hy : y ∈ all := managerIter_mem hx hb
    have : managerIter all (b + (a - b)) x = some y := by
      rwa [Nat.add_sub_cancel' (Nat.le_of_lt h)]
    rw [managerIter_add, hb] at this
    simp at this
    exact cycle_absurd hy hC (Nat.sub_ne_zero_of_lt h) this

/-! ### Counting occurrences across a flatMap -/

lemma count_flatMap_zero {α β : Type} [DecidableEq β] {l : List α} {g : α → List β} {b : β}
    (h : ∀ x ∈ l, (g x).count b = 0) : (l.flatMap g).count b = 0 := by
  induction l with
  | nil => simp
  | cons a l ih =>
    rw [List.flatMap_cons, List.count_append, h a (by simp),
      ih (fun x hx => h x (by simp [hx]))]

lemma count_flatMap_single {α β : Type} [DecidableEq α] [DecidableEq β]
    {l : List α} {g : α → List β} {b : β} {c : α}
    (h : ∀ x ∈ l, (g x).count b = if x = c then 1 else 0) :
    (l.flatMap g).count b = l.count c := by
  induction l with
  | nil => simp
  | cons a l ih =>
    rw [List.flatMap_cons, List.count_append, h a (by simp),
      ih (fun x hx => h x (by simp [hx])), List.count_cons]
    by_cases hac : a = c <;> simp [hac] <;> omega

/-! ### Equations for the tree constructions -/

lemma flattenTree_node (e : Employee) (cs : List EmpTree) :
    flattenTree (.node e cs) = e :: flattenForest cs := by
  simp [flattenTree]

lemma flattenForest_eq (ts : List EmpTree) :
    flattenForest ts = ts.flatMap flattenTree := by
  induction ts with
  | nil => rfl
  | cons t ts ih => simp [flattenForest, ih]

lemma buildTree_zero (all : List Employee) (e : Employee) :
    buildTree all 0 e = .node e [] := rfl

lemma buildTree_succ (all : List Employee) (f : Nat) (e : Employee) :
    buildTree all (f + 1) e = .node e ((childrenOf all e).map (buildTree all f)) := rfl

lemma treeRoot_buildTree (all : List Employee) (f : Nat) (e : Employee) :
    treeRoot (buildTree all f e) = e := by
  cases f <;> rfl

lemma flatten_build_zero (all : List Employee) (e : Employee) :
    flattenTree (buildTree all 0 e) = [e] := by
  rw [buildTree_zero, flattenTree_node]
  rfl

lemma flatten_build_succ (all : List Employee) (f : Nat) (e : Employee) :
    flattenTree (buildTree all (f + 1) e) =
      e :: (childrenOf all e).flatMap (fun c => flattenTree (buildTree all f c)) := by
  rw [buildTree_succ, flattenTree_node, flattenForest_eq, List.flatMap_map]

/-! ### Occurrence counts in built trees -/

lemma flat_count_zero {all : List Employee} {x : Employee} :
    ∀ (f : Nat) (e : Employee), (∀ d ≤ f, managerIter all d x ≠ some e) →
      (flattenTree (buildTree all f e)).count x = 0 := by
  intro f
  induction f with
  | zero =>
    intro e h
    have hne : x ≠ e := by
      intro hxe
      exact h 0 (Nat.le_refl 0) (by rw [managerIter_zero, hxe])
    rw [flatten_build_zero]
    simp [hne]
  | succ f ih =>
    intro e h
    have hne : x ≠ e := by
      intro hxe
      exact h 0 (Nat.zero_le _) (by rw [managerIter_zero, hxe])
    rw [flatten_build_succ, List.count_cons]
    have hzero : ((childrenOf all e).flatMap
        (fun c => flattenTree (buildTree all f c))).count x = 0 := by
      apply count_flatMap_zero
      intro c hc
      apply ih
      intro d hd heq
      have hmc : manager all c = some e := (mem_childrenOf.mp hc).2
      have : managerIter all (d + 1) x = some e := by
        rw [managerIter_succ_right, heq]
        simpa using hmc
      exact h (d + 1) (by omega) this
    rw [hzero]
    simp [Ne.symm hne]

lemma flat_count_one {all : List Employee} {x : Employee}
    (hx : x ∈ all) (hC : chainsEnd all) (hN : (all.map Employee.id).Nodup) :
    ∀ (f : Nat) (e : Employee) (d : Nat), d ≤ f → managerIter all d x = some e →
      (flattenTree (buildTree all f e)).count x = 1 := by
  intro f
  induction f with
  | zero =>
    intro e d hd hiter
    interval_cases d
    rw [managerIter_zero] at hiter
    cases hiter
    rw [flatten_build_zero]
    simp
  | succ f ih =>
    intro e d hd hiter
    rw [flatten_build_succ, List.count_cons]
    cases d with
    | zero =>
      rw [managerIter_zero] at hiter
      cases hiter
      have hzero : ((childrenOf all x).flatMap
          (fun c => flattenTree (buildTree all f c))).count x = 0 := by
        apply count_flatMap_zero
        intro c hc
        apply flat_count_zero
        intro d hd2 heq
        have hmc : manager all c = some x := (mem_childrenOf.mp hc).2
        have hcyc : managerIter all (d + 1) x = some x := by
          rw [managerIter_succ_right, heq]
          simpa using hmc
        exact cycle_absurd hx hC (by omega) hcyc
      rw [hzero]
      simp
    | succ d =>
      have hne : x ≠ e := by
        intro hxe
        rw [← hxe] at hiter
        exact cycle_absurd hx hC (by omega) hiter
      have hiter2 := hiter
      rw [managerIter_succ_right] at hiter2
      cases hc : managerIter all d x with
      | none => rw [hc] at hiter2; exact absurd hiter2 (by simp)
      | some cstar =>
        rw [hc] at hiter2
        have hmc : manager all cstar = some e := by simpa using hiter2
        have hcall : cstar ∈ all := managerIter_mem hx hc
        have hcmem : cstar ∈ childrenOf all e := mem_childrenOf.mpr ⟨hcall, hmc⟩
        have hone : ((childrenOf all e).flatMap
            (fun c => flattenTree (buildTree all f c))).count x
            = (childrenOf all e).count cstar := by
          apply count_flatMap_single
          intro c hcm
          by_cases hcc : c = cstar
          · rw [if_pos hcc, hcc]
            exact ih cstar d (by omega) hc
          · rw [if_neg hcc]
            apply flat_count_zero
            intro d2 hd2 heq
            have hmcc : manager all c = some e := (mem_childrenOf.mp hcm).2
            have h2 : managerIter all (d2 + 1) x = some e := by
              rw [managerIter_succ_right, heq]
              simpa using hmcc
            have : d2 + 1 = d + 1 := iter_eq_iter_unique hx hC h2 hiter
            have hd2d : d2 = d := by omega
            rw [hd2d, hc] at heq
            exact hcc (Option.some.inj heq).symm
        rw [hone]
        have hnodall : all.Nodup := hN.of_map
        have : (childrenOf all e).count cstar = 1 :=
          List.count_eq_one_of_mem (hnodall.filter _) hcmem
        rw [this]
        simp [Ne.symm hne]

/-! ### Every chain reaches a root, and the forest is a permutation -/

lemma exists_last_some {all : List Employee} :
    ∀ (n : Nat) (x : Employee), managerIter all n x = none →
      ∃ k < n, ∃ y, managerIter all k x = some y ∧ manager all y = none := by
  intro n
  induction n with
  | zero =>
    intro x h
    rw [managerIter_zero] at h
    exact absurd h (by simp)
  | succ n ih =>
    intro x h
    cases hm : manager all x with
    | none => exact ⟨0, Nat.succ_pos n, x, managerIter_zero all x, hm⟩
    | some m =>
      rw [managerIter_succ, hm] at h
      obtain ⟨k, hk, y, hy, hmy⟩ := ih m h
      refine ⟨k + 1, Nat.succ_lt_succ hk, y, ?_, hmy⟩
      rw [managerIter_succ, hm]
      exact hy

lemma exists_root_chain {all : List Employee} {x : Employee}
    (hx : x ∈ all) (hC : chainsEnd all) (hV : validRefs all) :
    ∃ k < all.length, ∃ ρ, managerIter all k x = some ρ ∧ ρ ∈ roots all := by
  obtain ⟨k, hk, y, hy, hmy⟩ := exists_last_some all.length x (hC x hx)
  have hyall : y ∈ all := managerIter_mem hx hy
  have hrt : y.reportsTo = none := by
    cases hr : y.reportsTo with
    | none => rfl
    | some r =>
      exfalso
      have := hV y hyall r hr
      unfold manager at hmy
      rw [hr] at hmy
      simp at hmy
      rw [hmy] at this
      simp at this
  exact ⟨k, hk, y, hy, mem_roots.mpr ⟨hyall, hrt⟩⟩

lemma hierFlatten_eq (all : List Employee) :
    hierFlatten all =
      (roots all).flatMap (fun r => flattenTree (buildTree all all.length r)) := by
  unfold hierFlatten hierarchy
  rw [flattenForest_eq, List.flatMap_map]

lemma roots_manager_none {all : List Employee} {r : Employee}
    (h : r ∈ roots all) : manager all r = none :=
  manager_of_reportsTo_none (mem_roots.mp h).2

lemma hier_count_one {all : List Employee} {x : Employee}
    (hx : x ∈ all) (hN : (all.map Employee.id).Nodup)
    (hV : validRefs all) (hC : chainsEnd all) :
    (hierFlatten all).count x = 1 := by
  obtain ⟨k, hk, ρ, hρ, hρr⟩ := exists_root_chain hx hC hV
  rw [hierFlatten_eq]
  have hcnt : ((roots all).flatMap
      (fun r => flattenTree (buildTree all all.length r))).count x
      = (roots all).count ρ := by
    apply count_flatMap_single
    intro r hr
    by_cases hrρ : r = ρ
    · rw [if_pos hrρ, hrρ]
      exact flat_count_one hx hC hN all.length ρ k (Nat.le_of_lt hk) hρ
    · rw [if_neg hrρ]
      apply flat_count_zero
      intro d hd heq
      rcases Nat.lt_trichotomy d k with h | h | h
      · have : managerIter all (d + (k - d)) x = some ρ := by
          rwa [Nat.add_sub_cancel' (Nat.le_of_lt h)]
        rw [managerIter_add, heq] at this
        simp at this
        rw [managerIter_none_of_manager_none (roots_manager_none hr)
          (Nat.sub_ne_zero_of_lt h)] at this
        exact absurd this (by simp)
      · rw [h, hρ] at heq
        exact hrρ (Option.some.inj heq).symm
      · have : managerIter all (k + (d - k)) x = some r := by
          rwa [Nat.add_sub_cancel' (Nat.le_of_lt h)]
        rw [managerIter_add, hρ] at this
        simp at this
        rw [managerIter_none_of_manager_none (roots_manager_none hρr)
          (Nat.sub_ne_zero_of_lt h)] at this
        exact absurd this (by simp)
  rw [hcnt]
  have hnodall : all.Nodup := hN.of_map
  exact List.count_eq_one_of_mem (hnodall.filter _) hρr

lemma flat_build_subset {all : List Employee} :
    ∀ (f : Nat) (e y : Employee), y ∈ flattenTree (buildTree all f e) →
      y = e ∨ y ∈ all := by
  intro f
  induction f with
  | zero =>
    intro e y hy
    rw [flatten_build_zero] at hy
    simp at hy
    exact Or.inl hy
  | succ f ih =>
    intro e y hy
    rw [flatten_build_succ] at hy
    rcases List.mem_cons.mp hy with h | h
    · exact Or.inl h
    · right
      obtain ⟨c, hc, hyc⟩ := List.mem_flatMap.mp h
      rcases ih c y hyc with h2 | h2
      · rw [h2]
        exact (mem_childrenOf.mp hc).1
      · exact h2

lemma hierFlatten_subset {all : List Employee} {y : Employee}
    (h : y ∈ hierFlatten all) : y ∈ all := by
  rw [hierFlatten_eq] at h
  obtain ⟨r, hr, hyr⟩ := List.mem_flatMap.mp h
  rcases flat_build_subset all.length r y hyr with h2 | h2
  · rw [h2]
    exact (mem_roots.mp hr).1
  · exact h2

lemma hier_perm {all : List Employee}
    (hN : (all.map Employee.id).Nodup) (hV : validRefs all) (hC : chainsEnd all) :
    (hierFlatten all).Perm all := by
  rw [List.perm_iff_count]
  intro b
  have hnodall : all.Nodup := hN.of_map
  by_cases hb : b ∈ all
  · rw [hier_count_one hb hN hV hC, List.count_eq_one_of_mem hnodall hb]
  · rw [List.count_eq_zero_of_not_mem hb,
      List.count_eq_zero_of_not_mem (fun hmem => hb (hierFlatten_subset hmem))]

/-! ### Locating nodes inside the forest -/

lemma allNodes_node (e : Employee) (cs : List EmpTree) :
    allNodes (.node e cs) = .node e cs :: allNodesF cs := by
  simp [allNodes]

lemma allNodesF_eq (ts : List EmpTree) :
    allNodesF ts = ts.flatMap allNodes := by
  induction ts with
  | nil => rfl
  | cons t ts ih => simp [allNodesF, ih]

lemma self_mem_allNodes (t : EmpTree) : t ∈ allNodes t := by
  cases t with
  | node e cs =>
    rw [allNodes_node]
    exact List.mem_cons_self _ _

lemma mem_allNodesF_of_mem {ts : List EmpTree} {t u : EmpTree}
    (ht : t ∈ ts) (hu : u ∈ allNodes t) : u ∈ allNodesF ts := by
  rw [allNodesF_eq]
  exact List.mem_flatMap.mpr ⟨t, ht, hu⟩

lemma mem_allNodes_step {e : Employee} {cs : List EmpTree} {t s : EmpTree}
    (ht : t ∈ cs) (hs : s ∈ allNodes t) : s ∈ allNodes (.node e cs) := by
  rw [allNodes_node]
  exact List.mem_cons_of_mem _ (mem_allNodesF_of_mem ht hs)

lemma node_occurs {all : List Employee} {x : Employee} (hxall : x ∈ all) :
    ∀ (k : Nat) (e : Employee) (f : Nat), managerIter all k x = some e → k < f →
      buildTree all (f - k) x ∈ allNodes (buildTree all f e) := by
  intro k
  induction k with
  | zero =>
    intro e f hiter _
    rw [managerIter_zero] at hiter
    cases hiter
    exact self_mem_allNodes _
  | succ k ih =>
    intro e f hiter hkf
    rw [managerIter_succ_right] at hiter
    cases hy : managerIter all k x with
    | none => rw [hy] at hiter; exact absurd hiter (by simp)
    | some y =>
      rw [hy] at hiter
      have hmy : manager all y = some e := by simpa using hiter
      have hyall : y ∈ all := managerIter_mem hxall hy
      have hymem : y ∈ childrenOf all e := mem_childrenOf.mpr ⟨hyall, hmy⟩
      obtain ⟨g, rfl⟩ : ∃ g, f = g + 1 := ⟨f - 1, by omega⟩
      have harith : g + 1 - (k + 1) = g - k := by omega
      rw [harith, buildTree_succ]
      refine mem_allNodes_step (t := buildTree all g y) ?_ ?_
      · exact List.mem_map.mpr ⟨y, hymem, rfl⟩
      · exact ih y g hy (by omega)

lemma hierarchy_map_treeRoot (all : List Employee) :
    (hierarchy all).map treeRoot = roots all := by
  unfold hierarchy
  rw [List.map_map]
  simp [Function.comp_def, treeRoot_buildTree]

/-! ### Example collections -/

def empRoot : Employee := ⟨"r1", "Rhea", none, "rhea@corp.com", none, none, none⟩

def empMgr : Employee := ⟨"m1", "Mona", some "manager", "mona@corp.com", some "123", some "r1", none⟩

def empDev : Employee := ⟨"d1", "Devi", none, "devi@corp.com", none, some "m1", none⟩

def demoDb : List Employee := [empRoot, empMgr, empDev]

def cycX : Employee := ⟨"x1", "Xan", none, "xan@corp.com", none, some "y1", none⟩

def cycY : Employee := ⟨"y1", "Yuri", none, "yuri@corp.com", none, some "x1", none⟩

def cycDb : List Employee := [cycX, cycY]

def orgRoot : Employee := ⟨"a1", "Ana", none, "ana@corp.com", none, none, none⟩

def loopB : Employee := ⟨"b1", "Ben", none, "ben@corp.com", none, some "c1", none⟩

def loopC : Employee := ⟨"c1", "Cal", none, "cal@corp.com", none, some "b1", none⟩

def loopDb : List Employee := [orgRoot, loopB, loopC]

/-! ### Claim C1 -/

/-- C1 (amended): for a stored collection with pairwise-distinct identifiers
whose `reportsTo` references all resolve and form no cycle, the
`GET /employees/hierarchy` response contains every employee exactly once
(its flattening is a permutation of the collection); an employee without
`reportsTo` appears as a top-level root, and an employee with `reportsTo`
set appears in the `children` array of the node of the employee its
`reportsTo` resolves to. -/
theorem hierarchy_contains_each_employee_once (all : List Employee)
    (hN : (all.map Employee.id).Nodup) (hV : validRefs all) (hC : chainsEnd all) :
    (hierFlatten all).Perm all ∧
    (∀ x ∈ all, x.reportsTo = none → x ∈ (hierarchy all).map treeRoot) ∧
    (∀ x ∈ all, ∀ r p, x.reportsTo = some r → byId all r = some p →
      ∃ t ∈ allNodesF (hierarchy all), treeRoot t = p ∧
        x ∈ (treeChildren t).map treeRoot) := by
  refine ⟨hier_perm hN hV hC, ?_, ?_⟩
  · intro x hx hrt
    rw [hierarchy_map_treeRoot]
    exact mem_roots.mpr ⟨hx, hrt⟩
  · intro x hx r p hrt hbid
    have hmx : manager all x = some p := by
      unfold manager
      rw [hrt]
      exact hbid
    have hpall : p ∈ all := (byId_eq_some hbid).1
    obtain ⟨k, hk, ρ, hρ, hρr⟩ := exists_root_chain hpall hC hV
    have hnode := node_occurs hpall k ρ all.length hρ hk
    obtain ⟨g, hg⟩ : ∃ g, all.length - k = g + 1 := ⟨all.length - k - 1, by omega⟩
    have hchild : (treeChildren (buildTree all (all.length - k) p)).map treeRoot
        = childrenOf all p := by
      rw [hg, buildTree_succ]
      show (((childrenOf all p).map (buildTree all g)).map treeRoot) = childrenOf all p
      rw [List.map_map]
      simp [Function.comp_def, treeRoot_buildTree]
    refine ⟨buildTree all (all.length - k) p, ?_, treeRoot_buildTree all _ p, ?_⟩
    · refine mem_allNodesF_of_mem (t := buildTree all all.length ρ) ?_ hnode
      unfold hierarchy
      exact List.mem_map.mpr ⟨ρ, hρr, rfl⟩
    · rw [hchild]
      exact mem_childrenOf.mpr ⟨hx, hmx⟩

/-- Witness for C1 at a three-employee collection forming a valid forest. -/
theorem hierarchy_contains_each_employee_once_witness :
    (hierFlatten demoDb).Perm demoDb ∧
    (∀ x ∈ demoDb, x.reportsTo = none → x ∈ (hierarchy demoDb).map treeRoot) ∧
    (∀ x ∈ demoDb, ∀ r p, x.reportsTo = some r → byId demoDb r = some p →
      ∃ t ∈ allNodesF (hierarchy demoDb), treeRoot t = p ∧
        x ∈ (treeChildren t).map treeRoot) :=
  hierarchy_contains_each_employee_once demoDb (by decide) (by decide) (by decide)

/-- C1 counterexample: on a stored collection whose two employees name each
other as manager, the hierarchy response is empty, so it does not contain
every employee exactly once as the claim states for every collection. -/
theorem hierarchy_once_counterexample :
    cycX ∈ cycDb ∧ cycX.reportsTo = some cycY.id ∧ cycY.reportsTo = some cycX.id ∧
    (hierFlatten cycDb).count cycX = 0 := by
  refine ⟨by decide, by decide, by decide, by decide⟩

/-! ### Claim C9 -/

/-- C9: a collection with a `reportsTo` cycle breaks hierarchy
construction: the two cycle members are stored but appear nowhere in the
response, whose only tree is the genuine root. -/
theorem hierarchy_cycle_members_dropped :
    loopB.reportsTo = some loopC.id ∧ loopC.reportsTo = some loopB.id ∧
    loopB ∈ loopDb ∧ loopC ∈ loopDb ∧
    loopB ∉ hierFlatten loopDb ∧ loopC ∉ hierFlatten loopDb ∧
    (hierarchy loopDb).map treeRoot = [orgRoot] := by
  refine ⟨by decide, by decide, by decide, by decide, by decide, by decide, by decide⟩

/-! ### Search-related lemmas -/

lemma ciContains_empty (s : String) : ciContains s "" = true := by
  unfold ciContains
  have hp : (("" : String).data.map Char.toLower) = [] := rfl
  rw [hp]
  simp only [List.any_eq_true]
  exact ⟨[], (List.mem_tails _ _).mpr (List.nil_suffix), rfl⟩

lemma fieldMatch_name_empty (e : Employee) : fieldMatch e "name" "" = true := by
  unfold fieldMatch
  simp [ciContains_empty]

lemma textMatch_none_empty (e : Employee) : textMatch none "" e = true := by
  unfold textMatch searchFields
  rw [List.any_eq_true]
  exact ⟨"name", by simp [allFields], fieldMatch_name_empty e⟩

/-! ### Claim C2 -/

/-- C2: a search with `rowsPerPage=20`, `page=2` answers the matches after
the first 20, at most 20 of them, and `totalResults` is the full match
count whatever the page is. -/
theorem search_page2_pagination (all : List Employee) (term : String) (group : Option String) :
    searchEndpoint all term 2 20 group "none" =
      .ok ⟨((all.filter (fun e => textMatch group term e)).drop 20).take 20,
           (all.filter (fun e => textMatch group term e)).length, 2, 20⟩ ∧
    (((all.filter (fun e => textMatch group term e)).drop 20).take 20).length ≤ 20 ∧
    ∀ p : Int, ∃ data, searchEndpoint all term p 20 group "none" =
      .ok ⟨data, (all.filter (fun e => textMatch group term e)).length, p, 20⟩ := by
  refine ⟨?_, ?_, ?_⟩
  · simp only [searchEndpoint]
    rw [if_neg (by decide)]
    norm_num
    rfl
  · exact List.length_take_le _ _
  · intro p
    refine ⟨((all.filter (fun e => textMatch group term e)).drop
      (((max 1 p - 1) * max 1 (20 : Int)).toNat)).take ((max 1 (20 : Int)).toNat), ?_⟩
    simp only [searchEndpoint]
    rw [if_neg (by decide)]

/-! ### Claim C3 -/

lemma filter_id_unique {all : List Employee} {me : Employee}
    (hN : (all.map Employee.id).Nodup) (hmem : me ∈ all) :
    all.filter (fun e => decide (e.id = me.id)) = [me] := by
  have hinj : ∀ x ∈ all, ∀ y ∈ all, x.id = y.id → x = y :=
    List.inj_on_of_nodup_map hN
  have hcongr : all.filter (fun e => decide (e.id = me.id)) = all.filter (fun e => e == me) := by
    apply List.filter_congr
    intro a ha
    by_cases hame : a = me
    · simp [hame]
    · have : ¬a.id = me.id := fun hid => hame (hinj a ha me hmem hid)
      simp [this, hame]
  rw [hcongr, List.filter_beq, List.count_eq_one_of_mem hN.of_map hmem]
  rfl

/-- C3: with `filter=my_circle` and no further query parameters, the set of
matched employees is the current employee together with everyone sharing
its manager when it has one, and the current employee alone when it has
none; the response pages that set with the full count. -/
theorem my_circle_results (all : List Employee) (me : Employee)
    (hN : (all.map Employee.id).Nodup) (hme : byId all CURRENT_USER_ID = some me) :
    searchEndpoint all "" 1 20 none "my_circle" =
      .ok ⟨(all.filter (circlePred me)).take 20, (all.filter (circlePred me)).length, 1, 20⟩ ∧
    (me.reportsTo = none → all.filter (circlePred me) = [me]) ∧
    (∀ m, me.reportsTo = some m →
      ∀ e, e ∈ all.filter (circlePred me) ↔ e ∈ all ∧ (e = me ∨ e.reportsTo = some m)) := by
  have hmemall : me ∈ all := (byId_eq_some hme).1
  have hinj : ∀ x ∈ all, ∀ y ∈ all, x.id = y.id → x = y :=
    List.inj_on_of_nodup_map hN
  refine ⟨?_, ?_, ?_⟩
  · have hfc : all.filter (fun e => textMatch none "" e && circlePred me e)
        = all.filter (circlePred me) := by
      apply List.filter_congr
      intro a _
      rw [textMatch_none_empty a]
      simp
    simp only [searchEndpoint, searchMatches, hme]
    norm_num [hfc]
    rfl
  · intro hrt
    have : all.filter (circlePred me) = all.filter (fun e => decide (e.id = me.id)) := by
      apply List.filter_congr
      intro a _
      unfold circlePred
      rw [hrt]
    rw [this]
    exact filter_id_unique hN hmemall
  · intro m hm e
    rw [List.mem_filter]
    unfold circlePred
    rw [hm]
    constructor
    · rintro ⟨he, hp⟩
      simp only [Bool.or_eq_true, decide_eq_true_eq] at hp
      rcases hp with hid | hrt
      · exact ⟨he, Or.inl (hinj e he me hmemall hid)⟩
      · exact ⟨he, Or.inr hrt⟩
    · rintro ⟨he, hor⟩
      refine ⟨he, ?_⟩
      simp only [Bool.or_eq_true, decide_eq_true_eq]
      rcases hor with rfl | hrt
      · exact Or.inl rfl
      · exact Or.inr hrt

/-! ### Claim C10 -/

/-- C10: the `my_circle` current employee is the hard-coded identifier, and
when no stored employee carries it, every `filter=my_circle` search answers
404 with the message `Current employee not found`. -/
theorem my_circle_fixed_current_user (all : List Employee) (term : String)
    (page rowsPerPage : Int) (group : Option String)
    (h : byId all CURRENT_USER_ID = none) :
    CURRENT_USER_ID = "685b99a3bb3c4990248037d3" ∧
    searchEndpoint all term page rowsPerPage group "my_circle" =
      .error ⟨404, "Current employee not found"⟩ := by
  refine ⟨rfl, ?_⟩
  simp [searchEndpoint, h]

/-! ### Claim C4 -/

/-- C4: `POST /employees` rejects a candidate whose email is already stored
or whose required `name` or `email` is missing, with a 400 response and an
unchanged collection. -/
theorem post_employees_validation (all : List Employee) (c : NewEmployee) (newId : String)
    (h : (∃ e ∈ all, some e.email = c.email) ∨ c.name = none ∨ c.email = none) :
    (postEmployees all c newId).1 = 400 ∧ (postEmployees all c newId).2 = all := by
  unfold postEmployees
  cases hn : c.name with
  | none => simp
  | some n =>
    cases he : c.email with
    | none => simp
    | some em =>
      rcases h with ⟨e, hemem, heq⟩ | h | h
      · rw [he] at heq
        have hdup : all.any (fun e => decide (e.email = em)) = true :=
          List.any_eq_true.mpr ⟨e, hemem, by simp [Option.some.inj heq]⟩
        simp [hdup]
      · rw [hn] at h
        exact absurd h (by simp)
      · rw [he] at h
        exact absurd h (by simp)

def dupCand : NewEmployee := ⟨some "Rhea Two", some "rhea@corp.com", none, none, none, none⟩

/-- Witness for C4: a candidate reusing a stored email is rejected and the
collection is unchanged. -/
theorem post_employees_validation_witness :
    (postEmployees demoDb dupCand "z9").1 = 400 ∧
    (postEmployees demoDb dupCand "z9").2 = demoDb :=
  post_employees_validation demoDb dupCand "z9" (Or.inl ⟨empRoot, by decide, by decide⟩)

/-! ### Claim C5 -/

/-- C5: when an id resolves to no stored employee, the read, update and
delete routes all answer 404 and leave the collection unchanged. -/
theorem missing_id_not_found (all : List Employee) (i : String) (b : UpdateBody)
    (h : byId all i = none) :
    getEmployee all i = .error ⟨404, "Not found"⟩ ∧
    putEmployee all i b = (none, all) ∧
    deleteEmployee all i = (none, all) := by
  unfold getEmployee putEmployee deleteEmployee
  rw [h]
  exact ⟨rfl, rfl, rfl⟩

/-- Witness for C5 at an id absent from the demo collection. -/
theorem missing_id_not_found_witness :
    getEmployee demoDb "zz" = .error ⟨404, "Not found"⟩ ∧
    putEmployee demoDb "zz" ⟨none, none, none, none, none⟩ = (none, demoDb) ∧
    deleteEmployee demoDb "zz" = (none, demoDb) :=
  missing_id_not_found demoDb "zz" ⟨none, none, none, none, none⟩ (by decide)

/-! ### Claim C6 -/

/-- C6: a successful `PUT /employees/:id` whose body leaves `reportsTo`
unset (hence stored as `null`) makes the updated employee a top-level root
of the next hierarchy response. -/
theorem put_reportsTo_null_root (all : List Employee) (i : String) (b : UpdateBody)
    (upd : Employee) (all2 : List Employee)
    (hb : b.reportsTo = none)
    (hput : putEmployee all i b = (some upd, all2)) :
    upd.reportsTo = none ∧ upd ∈ (hierarchy all2).map treeRoot := by
  unfold putEmployee at hput
  cases hby : byId all i with
  | none =>
    rw [hby] at hput
    exact absurd hput (by simp)
  | some old =>
    rw [hby] at hput
    rw [Prod.mk.injEq] at hput
    obtain ⟨h1, h2⟩ := hput
    have hupd : applyUpdate old b = upd := Option.some.inj h1
    have hrt : upd.reportsTo = none := by
      rw [← hupd]
      unfold applyUpdate
      simpa using hb
    refine ⟨hrt, ?_⟩
    rw [hierarchy_map_treeRoot]
    apply mem_roots.mpr
    refine ⟨?_, hrt⟩
    rw [← h2]
    obtain ⟨hold_mem, hold_id⟩ := byId_eq_some hby
    exact List.mem_map.mpr ⟨old, hold_mem, by rw [if_pos hold_id]; exact hupd⟩

def putBody : UpdateBody := ⟨none, none, none, none, none⟩

def updMona : Employee := ⟨"m1", "Mona", some "manager", "mona@corp.com", some "123", none, none⟩

def demoDb2 : List Employee := [empRoot, updMona, empDev]

/-- Witness for C6: clearing Mona's manager makes her a root. -/
theorem put_reportsTo_null_root_witness :
    updMona.reportsTo = none ∧ updMona ∈ (hierarchy demoDb2).map treeRoot :=
  put_reportsTo_null_root demoDb "m1" putBody updMona demoDb2 (by decide) (by decide)

/-! ### Claim C7 -/

/-- C7: the text match is the case-insensitive substring test applied to a
configurable subset of the four text fields: a `group` naming one of them
restricts the match to that field, and any other `group` (or none) matches
when any of the four fields matches. -/
theorem search_group_narrowing (e : Employee) (term : String) :
    (∀ g, g ∈ allFields → textMatch (some g) term e = fieldMatch e g term) ∧
    (textMatch none term e = true ↔ ∃ f ∈ allFields, fieldMatch e f term = true) ∧
    (∀ g, g ∉ allFields → textMatch (some g) term e = textMatch none term e) := by
  refine ⟨?_, ?_, ?_⟩
  · intro g hg
    simp only [textMatch, searchFields]
    rw [if_pos hg]
    simp
  · simp only [textMatch, searchFields]
    exact List.any_eq_true
  · intro g hg
    simp only [textMatch, searchFields]
    rw [if_neg hg]

/-- Witness for C7: a valid `group` narrows the match to that field, and an
unknown `group` falls back to matching all four fields. -/
theorem search_group_narrowing_witness :
    textMatch (some "email") "corp" empRoot = fieldMatch empRoot "email" "corp" ∧
    textMatch (some "bogus") "corp" empRoot = textMatch none "corp" empRoot :=
  ⟨(search_group_narrowing empRoot "corp").1 "email" (by decide),
   (search_group_narrowing empRoot "corp").2.2 "bogus" (by decide)⟩

/-! ### Claim C8 -/

/-- C8: `GET /employees/simple` answers one projected record per stored
employee, carrying exactly the identifier and the name. -/
theorem simple_list_projection (all : List Employee) :
    (simpleList all).length = all.length ∧
    simpleList all = all.map (fun e => ⟨e.id, e.name⟩) ∧
    ∀ s ∈ simpleList all, ∃ e ∈ all, s.id = e.id ∧ s.name = e.name := by
  refine ⟨by simp [simpleList], rfl, ?_⟩
  intro s hs
  obtain ⟨e, he, rfl⟩ := List.mem_map.mp hs
  exact ⟨e, he, rfl, rfl⟩

/-- Witness for C8: the projection of the demo collection's first record. -/
theorem simple_list_projection_witness :
    ∃ e ∈ demoDb, (SimpleEmployee.mk "r1" "Rhea").id = e.id ∧
      (SimpleEmployee.mk "r1" "Rhea").name = e.name :=
  (simple_list_projection demoDb).2.2 ⟨"r1", "Rhea"⟩ (by decide)

/-! ### Remaining witnesses -/

def circleBoss : Employee := ⟨"b9", "Boss", none, "boss@corp.com", none, none, none⟩

def circleMe : Employee :=
  ⟨"685b99a3bb3c4990248037d3", "Mel", none, "mel@corp.com", none, some "b9", none⟩

def circlePeer : Employee := ⟨"p9", "Pat", none, "pat@corp.com", none, some "b9", none⟩

def circleDb : List Employee := [circleBoss, circleMe, circlePeer]

/-- Witness for C3 at a collection holding the current employee, a manager
and one peer. -/
theorem my_circle_results_witness :
    searchEndpoint circleDb "" 1 20 none "my_circle" =
      .ok ⟨(circleDb.filter (circlePred circleMe)).take 20,
           (circleDb.filter (circlePred circleMe)).length, 1, 20⟩ ∧
    (circleMe.reportsTo = none → circleDb.filter (circlePred circleMe) = [circleMe]) ∧
    (∀ m, circleMe.reportsTo = some m →
      ∀ e, e ∈ circleDb.filter (circlePred circleMe) ↔
        e ∈ circleDb ∧ (e = circleMe ∨ e.reportsTo = some m)) :=
  my_circle_results circleDb circleMe (by decide) (by decide)

/-- Witness for C10 at the empty collection. -/
theorem my_circle_fixed_current_user_witness :
    CURRENT_USER_ID = "685b99a3bb3c4990248037d3" ∧
    searchEndpoint [] "ann" 1 20 none "my_circle" =
      .error ⟨404, "Current employee not found"⟩ :=
  my_circle_fixed_current_user [] "ann" 1 20 none (by decide)
